import Mathlib

/-!
Verification of the `youtube_transcript` extraction-and-normalization pipeline
(`src/main.rs`).

Shallow embedding conventions:
* Rust `&str`/`String` values are modelled as `List Char` (byte indices in the
  source only ever occur at character boundaries, so character lists are an
  exact model for the string operations used).
* `f64` timestamp values are modelled as exact rationals `ℚ`; where the
  NaN/non-NaN distinction matters (the sort comparator of
  `normalize_timestamps`) an explicit `F64` type with a NaN marker is used.
  Infinite values and binary rounding of decimal literals are not modelled:
  no claim depends on them.
* Machine integers (`i32`) are modelled as unbounded `ℤ` in the entry-level
  normalizer core `normalizeEntries` (the functional bucket claims involve
  only small, non-negative time values).  The full `normalize_timestamps`
  model, whose claim is about totality, does model the `i32` aspects that
  affect it: the saturating `f64 as i32` cast (`truncF64`) and the overflow
  of the `current_timestamp += interval` increment, whose abnormal outcome
  (panic under checked arithmetic, wrap followed by a non-terminating loop
  in release builds) is modelled as `none`.
* Because Batteries marks `Rat.add`/`Rat.mul`/`Rat.div` `@[irreducible]`,
  the executable definitions below avoid those operations (using `mkRat`,
  integer casts and integer arithmetic instead) so that concrete runs reduce
  in the kernel; bridging lemmas relate them to the ordinary field
  operations.
-/

namespace YT



/-! ### Kernel-computable rational helpers -/

/-- `a + b` on `ℚ`, computed via `mkRat` (kernel-reducible). -/

def qadd (a b : ℚ) : ℚ := mkRat (a.num * b.den + b.num * a.den) (a.den * b.den)

/-- `a * b` on `ℚ`, computed via `mkRat` (kernel-reducible). -/

def qmul (a b : ℚ) : ℚ := mkRat (a.num * b.num) (a.den * b.den)

/-- `⌊q⌋`, computed as `q.num / q.den` (kernel-reducible). -/

def floorQ (q : ℚ) : ℤ := q.num / q.den

/-- Truncation toward zero, the semantics of Rust's `f64 as i32` cast
(on finite values, ignoring saturation). -/

def truncQ (q : ℚ) : ℤ := if q < 0 then -floorQ (-q) else floorQ q

/-- `⌊q / n⌋` for a natural `n`, computed with integer division only. -/

def floorDivNat (q : ℚ) (n : ℕ) : ℤ := q.num / ((n : ℤ) * (q.den : ℤ))

/-- Truncation toward zero of `q / n`, the value of Rust's `trunc`-style
division hidden inside the `%` remainder operator. -/

def truncDivNat (q : ℚ) (n : ℕ) : ℤ := if q < 0 then -floorDivNat (-q) n else floorDivNat q n

/-- Rust's `%` on `f64` (`a - n * trunc(a / n)`), as an exact rational. -/

def fmodQ (a : ℚ) (n : ℕ) : ℚ := a - (n : ℚ) * ((truncDivNat a n : ℤ) : ℚ)

/-! ### Interval normalizer (`normalize_timestamps`, entry-level core)

The body of `normalize_timestamps` (src/main.rs:144-180), after
`process_timestamp_line` has produced the `(f64, String)` entry list, is:
sort stably by timestamp, then for `current_timestamp = 0, 6, 12, ...` while
`current_timestamp <= entries.last().unwrap_or(0.0) as i32`, join the texts
of the entries with `start_time <= ts < end_time` (where
`end_time = (current_timestamp + interval) as f64`) and emit a line when the
joined text is non-empty. -/

/-- One parsed transcript entry: `(timestamp, text)`. -/

abbrev Entry : Type := ℚ × List Char

/-- Rust's stable `sort_by` on the timestamp comparator. A stable sort is
uniquely determined by sortedness plus stability, so insertion sort with a
non-strict comparator is an exact model of the slice sort used. -/

def sortEntries (l : List Entry) : List Entry :=
  List.insertionSort (fun a b => a.1 ≤ b.1) l

/-- The entries falling in bucket `[b, b+6)`; the upper bound is computed as
`(b + 6 : ℤ)` cast to `ℚ`, exactly as the code computes
`(current_timestamp + interval) as f64`. -/

def bucketFilter (l : List Entry) (b : ℤ) : List Entry :=
  l.filter (fun e => decide ((b : ℚ) ≤ e.1) && decide (e.1 < ((b + 6 : ℤ) : ℚ)))

/-- Texts of the entries of bucket `b`, in sorted (ascending-start) order. -/

def bucketTexts (entries : List Entry) (b : ℤ) : List (List Char) :=
  (bucketFilter (sortEntries entries) b).map Prod.snd

/-- `Vec::join(" ")`. -/

def joinSpace : List (List Char) → List Char
  | [] => []
  | [t] => t
  | t :: ts => t ++ ' ' :: joinSpace ts

/-- `entries.last().map(|e| e.0).unwrap_or(0.0)`. -/

def maxQ (l : List Entry) : ℚ := (l.getLast?.map Prod.fst).getD 0

/-- `entries.last().map(|e| e.0).unwrap_or(0.0) as i32`. -/

def maxStartI (l : List Entry) : ℤ := truncQ (maxQ l)

/-- One loop iteration of `normalize_timestamps`: the line emitted for bucket
`b` (if the joined text is non-empty). -/

def bucketLine (sorted : List Entry) (b : ℤ) : Option (ℤ × List Char) :=
  let t := joinSpace ((bucketFilter sorted b).map Prod.snd)
  if t = [] then none else some (b, t)

/-- The grouping loop of `normalize_timestamps`, producing the list of
`(bucket_start, joined text)` pairs in emission order. -/

def normalizeEntries (entries : List Entry) : List (ℤ × List Char) :=
  let sorted := sortEntries entries
  let m := maxStartI sorted
  if m < 0 then []
  else (List.range (m.toNat / 6 + 1)).filterMap (fun k : ℕ => bucketLine sorted (6 * (k : ℤ)))

/-! ### Rendering -/

/-- Decimal rendering of an integer (Rust `Display`). -/

def intChars (n : ℤ) : List Char := (toString n).toList

/-- Rust's width-2 zero-padded integer format: a single leading zero is added
to one-digit non-negative values, all other values print as-is. -/

def pad2 (n : ℤ) : List Char := if 0 ≤ n ∧ n < 10 then '0' :: intChars n else intChars n

/-- The line rendering used by `normalize_timestamps`: bracketed
`minutes:seconds` (minutes `b / 60` unpadded, seconds `b % 60` zero-padded
to width 2), a space, the joined text, and a newline. -/

def renderLine (b : ℤ) (t : List Char) : List Char :=
  '[' :: (intChars (b / 60) ++ ':' :: (pad2 (b % 60) ++ ']' :: ' ' :: (t ++ ['\n'])))

/-- The full rendered output of the normalizer's grouping loop. -/

def normalizeRender (entries : List Entry) : List Char :=
  ((normalizeEntries entries).map (fun l => renderLine l.1 l.2)).flatten

/-- `TranscriptItem::format_time` (src/main.rs:24-28): bracketed
`minutes:seconds`, both zero-padded to width 2, where minutes is
`(start / 60.0).floor()` and seconds is `(start % 60.0).floor()`.
The two displayed values are `⌊start/60⌋` and `⌊start % 60⌋`; they are
computed here with integer arithmetic (see `format_time_spec` below for the
bridge to the floor/mod formulation). -/

def format_time (start : ℚ) : List Char :=
  '[' :: (pad2 (floorDivNat start 60) ++ ':' ::
    (pad2 (floorQ start - 60 * truncDivNat start 60) ++ [']']))

/-! ### Structural lemmas about the normalizer -/

/-- The entry list is sorted by timestamp (non-strictly). -/

def KeySorted (l : List Entry) : Prop := List.Sorted (fun a b : Entry => a.1 ≤ b.1) l

instance : IsTotal Entry (fun a b : Entry => a.1 ≤ b.1) := ⟨fun a b => le_total a.1 b.1⟩

instance : IsTrans Entry (fun a b : Entry => a.1 ≤ b.1) := ⟨fun _ _ _ h1 h2 => le_trans h1 h2⟩

/-! ### Claim C8 -/

/-- Re-reading an emitted line as an input entry: the bucket timestamp
becomes the entry start. -/

def lineToEntry (l : ℤ × List Char) : Entry := ((l.1 : ℚ), l.2)

/-! ### Embedded-data extractor (`extract_json`, src/main.rs:31-42) -/

/-- `str::find` for a substring pattern: index of the first occurrence. -/

def findSub (l pat : List Char) : Option ℕ :=
  if pat.isPrefixOf l then some 0
  else
    match l with
    | [] => none
    | _ :: t => (findSub t pat).map (· + 1)

/-- The start marker `"ytInitialPlayerResponse = "`. -/

def startMarker : List Char := "ytInitialPlayerResponse = ".toList

/-- The end marker `";</script>"`. -/

def endMarker : List Char := ";</script>".toList

/-- `extract_json`: find the start marker, take the text after it, cut at the
first end-marker occurrence (or keep the whole remainder if absent). -/

def extract_json (html : List Char) : Option (List Char) :=
  (findSub html startMarker).map (fun start_idx =>
    let sub := html.drop (start_idx + startMarker.length)
    sub.take ((findSub sub endMarker).getD sub.length))

/-! ### Caption-track locator (src/main.rs:68-107) -/

/-- The generic JSON value tree produced by `serde_json`. -/

inductive Json where
  | null : Json
  | bool (b : Bool) : Json
  | num (q : ℚ) : Json
  | str (s : List Char) : Json
  | arr (items : List Json) : Json
  | obj (fields : List (List Char × Json)) : Json

/-- `serde_json::Value::get(key)`: field lookup, succeeding only on objects. -/

def Json.get (j : Json) (k : List Char) : Option Json :=
  match j with
  | Json.obj fields => (fields.find? (fun f => f.1 == k)).map Prod.snd
  | _ => none

/-- `Value::as_array`. -/

def Json.asArr : Json → Option (List Json)
  | Json.arr items => some items
  | _ => none

/-- `Value::as_str`. -/

def Json.asStr : Json → Option (List Char)
  | Json.str s => some s
  | _ => none

/-- The caption-track locator chain of `get_transcript`:
`captions → playerCaptionsTracklistRenderer → captionTracks`, as array,
first element, `baseUrl`, as string.  Any failure falls through to the
`NoCaptions` outcome (`None` here). -/

def locateBaseUrl (parsed : Json) : Option (List Char) :=
  (((((parsed.get ("captions".toList)).bind
    (fun c => c.get ("playerCaptionsTracklistRenderer".toList))).bind
    (fun p => p.get ("captionTracks".toList))).bind Json.asArr).bind
    (fun tracks => tracks.head?)).bind
    (fun t => (t.get ("baseUrl".toList)).bind Json.asStr)

/-! ### Timed-text parser (src/main.rs:82-99)

The Rust code matches the regex pattern
`<text start="CAP1" dur="CAP2"EXTRA>CAP3</text>` where `CAP1` and `CAP2` are
non-empty runs without a double quote, `EXTRA` is a (possibly empty) run
without a closing angle bracket, and `CAP3` is a non-empty run without an
opening angle bracket.  Because every repeated class excludes the character
that must follow it, the regex is deterministic and is modelled by the
direct matcher below; `captures_iter` is modelled by a scan that emits
non-overlapping leftmost matches. -/

/-- Consume an expected literal prefix, returning the remainder. -/

def expectLit : List Char → List Char → Option (List Char)
  | [], s => some s
  | _ :: _, [] => none
  | c :: cs, x :: xs => if c = x then expectLit cs xs else none

/-- The literal `<text start="` opening the pattern. -/

def litTextStart : List Char := "<text start=\"".toList

/-- The literal `" dur="` between the two captured attributes. -/

def litDur : List Char := "\" dur=\"".toList

/-- The closing double quote of the `dur` attribute. -/

def litQuote : List Char := "\"".toList

/-- The closing angle bracket of the opening tag. -/

def litGt : List Char := ">".toList

/-- The literal `</text>` closing the pattern. -/

def litClose : List Char := "</text>".toList

/-- Match the transcript-element regex at the start of `s`, returning the
three captures and the remaining input. -/

def matchTextElem (s : List Char) :
    Option (List Char × List Char × List Char × List Char) :=
  match expectLit litTextStart s with
  | none => none
  | some s1 =>
    if s1.takeWhile (· ≠ '"') = [] then none
    else
      match expectLit litDur (s1.dropWhile (· ≠ '"')) with
      | none => none
      | some s2 =>
        if s2.takeWhile (· ≠ '"') = [] then none
        else
          match expectLit litQuote (s2.dropWhile (· ≠ '"')) with
          | none => none
          | some s3 =>
            match expectLit litGt (s3.dropWhile (· ≠ '>')) with
            | none => none
            | some s4 =>
              if s4.takeWhile (· ≠ '<') = [] then none
              else
                match expectLit litClose (s4.dropWhile (· ≠ '<')) with
                | none => none
                | some s5 =>
                  some (s1.takeWhile (· ≠ '"'), s2.takeWhile (· ≠ '"'),
                    s4.takeWhile (· ≠ '<'), s5)

/-- Scan for successive non-overlapping leftmost matches.  The fuel argument
makes the recursion structural; `scanTextElems` supplies fuel equal to the
input length, which `scanAux_eq_of_le` below shows is always sufficient
(each match consumes at least one character). -/

def scanAux : ℕ → List Char → List (List Char × List Char × List Char)
  | 0, _ => []
  | _ + 1, [] => []
  | fuel + 1, ch :: rest =>
    match matchTextElem (ch :: rest) with
    | some (a, d, c, r) => (a, d, c) :: scanAux fuel r
    | none => scanAux fuel rest

/-- `captures_iter` over the transcript-element regex. -/

def scanTextElems (s : List Char) : List (List Char × List Char × List Char) :=
  scanAux s.length s

/-! ### f64 values and number parsing

`f64` timestamp values are modelled as exact rationals plus an explicit NaN
marker.  `parseF64` models `str::parse::<f64>` on the forms relevant here:
optional sign, decimal digit strings with an optional fractional part, and
the case-insensitive literal `nan` (which Rust's float grammar accepts,
producing NaN).  Exponents and infinities are not modelled — no claim
involves them — and decimal values are kept exact instead of being rounded
to binary. -/

inductive F64 where
  | nan : F64
  | fin (q : ℚ) : F64
deriving DecidableEq

/-- Rust `+` on `f64` (NaN-propagating; finite arithmetic exact). -/

def F64.add : F64 → F64 → F64
  | F64.fin a, F64.fin b => F64.fin (qadd a b)
  | _, _ => F64.nan

/-- Rust `*` on `f64` (NaN-propagating; finite arithmetic exact). -/

def F64.mul : F64 → F64 → F64
  | F64.fin a, F64.fin b => F64.fin (qmul a b)
  | _, _ => F64.nan

/-- Rust `-` (unary) on `f64`. -/

def F64.neg : F64 → F64
  | F64.nan => F64.nan
  | F64.fin q => F64.fin (-q)

/-- `f64::partial_cmp`: `None` whenever NaN is involved. -/

def F64.partialCmp : F64 → F64 → Option Ordering
  | F64.fin a, F64.fin b => some (compare a b)
  | _, _ => none

/-- `i32::MAX`. -/

def I32_MAX : ℤ := 2147483647

/-- `i32::MIN`. -/

def I32_MIN : ℤ := -2147483648

/-- `f64 as i32`: truncation toward zero, saturating at the `i32` range
bounds; NaN casts to 0. -/

def truncF64 : F64 → ℤ
  | F64.nan => 0
  | F64.fin q => max I32_MIN (min I32_MAX (truncQ q))

/-- Decimal value of a digit string. -/

def digitsVal (l : List Char) : ℕ :=
  l.foldl (fun n c => 10 * n + (c.toNat - '0'.toNat)) 0

/-- The unsigned core of float parsing: `nan` (case-insensitive), or digits
with an optional fractional part. -/

def parseF64Core (u : List Char) : Option F64 :=
  if u.map Char.toLower = "nan".toList then some F64.nan
  else
    match u.dropWhile Char.isDigit with
    | [] => if u.takeWhile Char.isDigit = [] then none else some (F64.fin (digitsVal u))
    | '.' :: frac =>
      if frac.all Char.isDigit ∧ (u.takeWhile Char.isDigit ≠ [] ∨ frac ≠ []) then
        some (F64.fin (qadd ((digitsVal (u.takeWhile Char.isDigit) : ℕ) : ℚ)
          (mkRat (digitsVal frac) (10 ^ frac.length))))
      else none
    | _ => none

/-- `str::parse::<f64>` (restricted model, see section comment). -/

def parseF64 (s : List Char) : Option F64 :=
  match s with
  | '-' :: u => (parseF64Core u).map F64.neg
  | '+' :: u => parseF64Core u
  | u => parseF64Core u

/-- `html_escape::decode_html_entities`, modelled on the five basic named /
numeric entities (the claims do not depend on the full entity table). -/

def decodeEntities : List Char → List Char
  | [] => []
  | '&' :: 'a' :: 'm' :: 'p' :: ';' :: rest => '&' :: decodeEntities rest
  | '&' :: 'l' :: 't' :: ';' :: rest => '<' :: decodeEntities rest
  | '&' :: 'g' :: 't' :: ';' :: rest => '>' :: decodeEntities rest
  | '&' :: 'q' :: 'u' :: 'o' :: 't' :: ';' :: rest => '"' :: decodeEntities rest
  | '&' :: '#' :: '3' :: '9' :: ';' :: rest => '\'' :: decodeEntities rest
  | ch :: rest => ch :: decodeEntities rest

/-! ### Transcript parsing (`get_transcript`, parse step) -/

/-- One parsed caption span (struct `TranscriptItem`). -/

structure TranscriptItem where
  text : List Char
  start : F64
  duration : F64
deriving DecidableEq

/-- The error taxonomy of the pipeline (distinct user-visible outcomes). -/

inductive TErr where
  | notFound : TErr
  | malformedData : TErr
  | noCaptions : TErr
  | malformedNumber : TErr
  | emptyTranscript : TErr
deriving DecidableEq

/-- The capture-processing loop of `get_transcript` (src/main.rs:85-95):
parse `start` and `dur` (a failure aborts the whole parse), decode entities
in the text, collect the items in match order. -/

def parseItems : List (List Char × List Char × List Char) → Except TErr (List TranscriptItem)
  | [] => Except.ok []
  | (s, d, t) :: rest =>
    match parseF64 s with
    | none => Except.error TErr.malformedNumber
    | some sv =>
      match parseF64 d with
      | none => Except.error TErr.malformedNumber
      | some dv =>
        match parseItems rest with
        | Except.error e => Except.error e
        | Except.ok items => Except.ok (⟨decodeEntities t, sv, dv⟩ :: items)

/-- The parse step of `get_transcript` (src/main.rs:82-99): run the regex
scan, process all captures, then fail with `EmptyTranscript` when no line
was produced. -/

def parseTranscript (xml : List Char) : Except TErr (List TranscriptItem) :=
  match parseItems (scanTextElems xml) with
  | Except.error e => Except.error e
  | Except.ok items =>
    if items.isEmpty then Except.error TErr.emptyTranscript else Except.ok items

/-! ### `process_timestamp_line` and the full `normalize_timestamps`
(src/main.rs:125-180), with f64 semantics (NaN included) -/

/-- `str::trim` (both ends; ASCII whitespace suffices for the inputs here). -/

def trimChars (l : List Char) : List Char :=
  ((l.dropWhile Char.isWhitespace).reverse.dropWhile Char.isWhitespace).reverse

/-- `process_timestamp_line`: a line `[M:S] text` is accepted when it starts
with `[`, contains `]`, the bracketed part splits once at `:`, and both
parts parse as `f64`; the timestamp is `M * 60 + S` and the text is the
trimmed remainder after `]`. -/

def process_timestamp_line (line : List Char) : Option (F64 × List Char) :=
  match line.findIdx? (· = ']') with
  | none => none
  | some timestamp_end =>
    if line.head? = some '[' then
      match ((line.drop 1).take (timestamp_end - 1)).findIdx? (· = ':') with
      | none => none
      | some ci =>
        match parseF64 (((line.drop 1).take (timestamp_end - 1)).take ci),
            parseF64 (((line.drop 1).take (timestamp_end - 1)).drop (ci + 1)) with
        | some m, some s =>
          some (F64.add (F64.mul m (F64.fin 60)) s, trimChars (line.drop (timestamp_end + 1)))
        | _, _ => none
    else none

/-- One insertion step of the stable sort, with the comparator
`|a, b| a.0.partial_cmp(&b.0).unwrap()`: `none` models the `unwrap` panic on
a NaN comparison.  An element is inserted after all elements it does not
strictly precede, which is exactly the stable-sort placement. -/

def insertF (x : F64 × List Char) : List (F64 × List Char) → Option (List (F64 × List Char))
  | [] => some [x]
  | y :: ys =>
    match F64.partialCmp x.1 y.1 with
    | none => none
    | some Ordering.lt => some (x :: y :: ys)
    | some _ => (insertF x ys).map (fun res => y :: res)

/-- Stable insertion sort with the panicking comparator.  `slice::sort_by`
is stable, so its successful result coincides with insertion sort; it
panics exactly when an executed comparison involves NaN, which the `none`
outcome models. -/

def sortFAux (acc : List (F64 × List Char)) :
    List (F64 × List Char) → Option (List (F64 × List Char))
  | [] => some acc
  | x :: xs =>
    match insertF x acc with
    | none => none
    | some acc2 => sortFAux acc2 xs

/-- `entries.sort_by(|a, b| a.0.partial_cmp(&b.0).unwrap())`. -/

def sortByTimestamp (l : List (F64 × List Char)) : Option (List (F64 × List Char)) :=
  sortFAux [] l

/-- `ts >= start_time` on `f64` (false for NaN). -/

def F64.geInt : F64 → ℤ → Bool
  | F64.nan, _ => false
  | F64.fin q, n => decide ((n : ℚ) ≤ q)

/-- `ts < end_time` on `f64` (false for NaN). -/

def F64.ltInt : F64 → ℤ → Bool
  | F64.nan, _ => false
  | F64.fin q, n => decide (q < (n : ℚ))

/-- One bucket line of the f64-level normalizer. -/

def bucketLineF (sorted : List (F64 × List Char)) (b : ℤ) : Option (ℤ × List Char) :=
  if joinSpace ((sorted.filter (fun e => F64.geInt e.1 b && F64.ltInt e.1 (b + 6))).map
      Prod.snd) = [] then none
  else some (b, joinSpace ((sorted.filter
    (fun e => F64.geInt e.1 b && F64.ltInt e.1 (b + 6))).map Prod.snd))

/-- The full `normalize_timestamps` on a line list, with f64 (NaN-aware)
timestamps and `i32` loop-counter semantics: parse lines, sort (a NaN
comparison makes the comparator's `unwrap` panic — `none`), then group into
6-second buckets while `current_timestamp <= m`, where `m` is the saturated
`as i32` cast of the last sorted timestamp, rendering each non-empty bucket.
When `m < 0` the loop body never runs (empty output).  Otherwise the body
runs for `current_timestamp = 0, 6, ..., 6 * (m / 6)` and each iteration
ends with `current_timestamp += interval` on `i32` (src/main.rs:176); the
last of these increments overflows exactly when `6 * (m / 6) + 6 > i32::MAX`
(that is, `m ≥ 2147483646`), and then the program produces no result — a
panic under checked arithmetic, or in release builds a wrap to a negative
even counter after which the guard (only falsifiable by the odd value
`i32::MAX`) never fails, an infinite loop — modelled as `none`.
`normalizeEntries` above is the same grouping loop specialized to finite
timestamps away from the overflow range. -/

def normalize_timestamps (lines : List (List Char)) : Option (List Char) :=
  match sortByTimestamp (lines.filterMap process_timestamp_line) with
  | none => none
  | some sorted =>
    if truncF64 ((sorted.getLast?.map Prod.fst).getD (F64.fin 0)) < 0 then some []
    else if I32_MAX <
        6 * (((truncF64 ((sorted.getLast?.map Prod.fst).getD (F64.fin 0))).toNat / 6 : ℕ) : ℤ)
          + 6 then none
    else
      some
        ((((List.range ((truncF64 ((sorted.getLast?.map Prod.fst).getD (F64.fin 0))).toNat / 6
            + 1)).filterMap
          (fun k : ℕ => bucketLineF sorted (6 * (k : ℤ)))).map
            (fun l => renderLine l.1 l.2)).flatten)

theorem qadd_eq (a b : ℚ) : qadd a b = a + b := by
  rw [qadd, Rat.mkRat_eq_divInt, Rat.add_def, Rat.normalize_eq_mkRat, Rat.mkRat_eq_divInt]

theorem qmul_eq (a b : ℚ) : qmul a b = a * b := by
  rw [qmul, Rat.mkRat_eq_divInt, Rat.mul_def, Rat.normalize_eq_mkRat, Rat.mkRat_eq_divInt]

theorem floorQ_eq (q : ℚ) : floorQ q = ⌊q⌋ := Rat.floor_def.symm

theorem truncQ_eq_floor {q : ℚ} (h : 0 ≤ q) : truncQ q = ⌊q⌋ := by
  rw [truncQ, if_neg (not_lt.mpr h), floorQ_eq]

theorem truncQ_intCast (n : ℤ) : truncQ ((n : ℤ) : ℚ) = n := by
  rcases le_or_lt 0 (n : ℚ) with h | h
  · rw [truncQ_eq_floor h, Int.floor_intCast]
  · rw [truncQ, if_pos h, ← Int.cast_neg, floorQ_eq, Int.floor_intCast, neg_neg]

theorem floorDivNat_eq (q : ℚ) (n : ℕ) :
    floorDivNat q n = ⌊q / (n : ℚ)⌋ := by
  have hq : q / (n : ℚ) = (q.num : ℚ) / ((n * q.den : ℕ) : ℚ) := by
    conv_lhs => rw [← Rat.num_div_den q]
    rw [div_div]
    push_cast
    ring_nf
  rw [hq, Rat.floor_intCast_div_natCast, floorDivNat]
  congr 1

theorem format_time_spec (start : ℚ) :
    format_time start =
      '[' :: (pad2 ⌊start / (60 : ℚ)⌋ ++ ':' :: (pad2 ⌊fmodQ start 60⌋ ++ [']'])) := by
  have h1 : floorDivNat start 60 = ⌊start / (60 : ℚ)⌋ := by
    rw [floorDivNat_eq start 60]
    norm_cast
  have h2 : floorQ start - 60 * truncDivNat start 60 = ⌊fmodQ start 60⌋ := by
    rw [fmodQ,
      show ((60 : ℕ) : ℚ) * ((truncDivNat start 60 : ℤ) : ℚ) =
        ((60 * truncDivNat start 60 : ℤ) : ℚ) by push_cast; ring,
      Int.floor_sub_int, floorQ_eq]
  rw [format_time, h1, h2]

theorem sortEntries_perm (l : List Entry) : (sortEntries l).Perm l :=
  List.perm_insertionSort _ l

theorem sortEntries_sorted (l : List Entry) : KeySorted (sortEntries l) :=
  List.sorted_insertionSort _ l

theorem mem_sortEntries {l : List Entry} {e : Entry} : e ∈ sortEntries l ↔ e ∈ l :=
  (sortEntries_perm l).mem_iff

theorem le_maxQ_of_mem {l : List Entry} (hs : KeySorted l) :
    ∀ e ∈ l, e.1 ≤ maxQ l := by
  induction l with
  | nil => intro e he; cases he
  | cons x t ih =>
    cases t with
    | nil =>
      intro e he
      rcases List.mem_singleton.mp he with rfl
      simp [maxQ]
    | cons y t2 =>
      intro e he
      have hmax : maxQ (x :: y :: t2) = maxQ (y :: t2) := by
        simp [maxQ, List.getLast?_cons_cons]
      rw [hmax]
      have hxy : x.1 ≤ y.1 := List.rel_of_sorted_cons hs y (List.mem_cons_self y t2)
      have hts : KeySorted (y :: t2) := (List.sorted_cons.mp hs).2
      rcases List.mem_cons.mp he with rfl | h2
      · exact le_trans hxy (ih hts y (List.mem_cons_self y t2))
      · exact ih hts e h2

theorem maxQ_nonneg {l : List Entry} (h0 : ∀ e ∈ l, 0 ≤ e.1) : 0 ≤ maxQ l := by
  cases hl : l.getLast? with
  | none => simp [maxQ, hl]
  | some x =>
    have hx : x ∈ l := by
      rcases List.mem_getLast?_eq_getLast (Option.mem_def.mpr hl) with ⟨h, rfl⟩
      exact List.getLast_mem h
    have := h0 x hx
    simp [maxQ, hl, this]

theorem maxStartI_nonneg {l : List Entry} (h0 : ∀ e ∈ l, 0 ≤ e.1) : 0 ≤ maxStartI l := by
  rw [maxStartI, truncQ_eq_floor (maxQ_nonneg h0)]
  exact Int.floor_nonneg.mpr (maxQ_nonneg h0)

theorem bucketLine_eq_some {sorted : List Entry} {b b' : ℤ} {t : List Char} :
    bucketLine sorted b = some (b', t) ↔
      b' = b ∧ t = joinSpace ((bucketFilter sorted b).map Prod.snd) ∧ t ≠ [] := by
  simp only [bucketLine]
  by_cases h : joinSpace ((bucketFilter sorted b).map Prod.snd) = []
  · rw [if_pos h]
    constructor
    · rintro ⟨⟩
    · rintro ⟨rfl, rfl, hne⟩
      exact absurd h hne
  · rw [if_neg h]
    simp only [Option.some.injEq, Prod.mk.injEq]
    constructor
    · rintro ⟨rfl, rfl⟩
      exact ⟨rfl, rfl, h⟩
    · rintro ⟨rfl, rfl, -⟩
      exact ⟨rfl, rfl⟩

/-- Membership characterization of the normalizer's output: the emitted lines
are exactly the buckets `6k` below the truncated maximal timestamp whose
joined text is non-empty. -/

theorem mem_normalizeEntries_iff {es : List Entry} {b : ℤ} {t : List Char} :
    (b, t) ∈ normalizeEntries es ↔
      0 ≤ maxStartI (sortEntries es) ∧
      (∃ k : ℕ, b = 6 * (k : ℤ)) ∧ b ≤ maxStartI (sortEntries es) ∧
      t = joinSpace (bucketTexts es b) ∧ t ≠ [] := by
  simp only [normalizeEntries]
  by_cases hneg : maxStartI (sortEntries es) < 0
  · rw [if_pos hneg]
    simp only [List.not_mem_nil, false_iff]
    rintro ⟨h, -⟩
    omega
  · rw [if_neg hneg]
    rw [List.mem_filterMap]
    constructor
    · rintro ⟨k, hk, hline⟩
      rw [List.mem_range] at hk
      rcases bucketLine_eq_some.mp hline with ⟨rfl, ht, hne⟩
      refine ⟨by omega, ⟨k, rfl⟩, by omega, ?_, hne⟩
      exact ht
    · rintro ⟨-, ⟨k, rfl⟩, hle, ht, hne⟩
      refine ⟨k, ?_, ?_⟩
      · rw [List.mem_range]
        omega
      · exact bucketLine_eq_some.mpr ⟨rfl, ht, hne⟩

/-- The emitted lines have strictly increasing bucket keys. -/

theorem normalizeEntries_pairwise (es : List Entry) :
    List.Pairwise (fun a b : ℤ × List Char => a.1 < b.1) (normalizeEntries es) := by
  simp only [normalizeEntries]
  split
  · exact List.Pairwise.nil
  · rw [List.pairwise_filterMap]
    refine (List.pairwise_lt_range _).imp ?_
    intro k k' hkk x hx y hy
    obtain ⟨bx, tx⟩ := x
    obtain ⟨b2, t2⟩ := y
    rw [Option.mem_def] at hx hy
    rcases bucketLine_eq_some.mp hx with ⟨rfl, -, -⟩
    rcases bucketLine_eq_some.mp hy with ⟨rfl, -, -⟩
    simp only
    omega

theorem mem_bucketFilter {l : List Entry} {b : ℤ} {e : Entry} :
    e ∈ bucketFilter l b ↔ e ∈ l ∧ (b : ℚ) ≤ e.1 ∧ e.1 < (b : ℚ) + 6 := by
  have hcast : (((b + 6 : ℤ)) : ℚ) = (b : ℚ) + 6 := by push_cast; ring
  rw [bucketFilter, List.mem_filter]
  simp only [Bool.and_eq_true, decide_eq_true_eq, hcast]

theorem joinSpace_ne_nil_of_mem {l : List (List Char)} {s : List Char} (hs : s ∈ l)
    (hne : s ≠ []) : joinSpace l ≠ [] := by
  cases l with
  | nil => cases hs
  | cons t ts =>
    cases ts with
    | nil =>
      rcases List.mem_singleton.mp hs with rfl
      simpa [joinSpace] using hne
    | cons u us => simp [joinSpace]

/-- A set of arithmetic facts used to locate the unique bucket of a
timestamp: `b = 6 * (⌊x⌋.toNat / 6)` satisfies `b ≤ x < b + 6`. -/

theorem bucket_bounds {x : ℚ} (hx : 0 ≤ x) :
    ((6 * ((⌊x⌋.toNat / 6 : ℕ) : ℤ) : ℤ) : ℚ) ≤ x ∧
      x < ((6 * ((⌊x⌋.toNat / 6 : ℕ) : ℤ) : ℤ) : ℚ) + 6 := by
  have hfl0 : 0 ≤ ⌊x⌋ := Int.floor_nonneg.mpr hx
  have hcast : ((⌊x⌋.toNat : ℤ)) = ⌊x⌋ := Int.toNat_of_nonneg hfl0
  constructor
  · have h1 : (6 * ((⌊x⌋.toNat / 6 : ℕ) : ℤ) : ℤ) ≤ ⌊x⌋ := by omega
    have h1' : ((6 * ((⌊x⌋.toNat / 6 : ℕ) : ℤ) : ℤ) : ℚ) ≤ ((⌊x⌋ : ℤ) : ℚ) := Int.cast_le.mpr h1
    exact le_trans h1' (Int.floor_le x)
  · have h2 : ⌊x⌋ + 1 ≤ 6 * ((⌊x⌋.toNat / 6 : ℕ) : ℤ) + 6 := by omega
    have h3 : ((⌊x⌋ + 1 : ℤ) : ℚ) ≤ ((6 * ((⌊x⌋.toNat / 6 : ℕ) : ℤ) + 6 : ℤ) : ℚ) :=
      Int.cast_le.mpr h2
    have h4 := Int.lt_floor_add_one x
    push_cast at h3 ⊢
    linarith

/-- Two buckets `6k`, `6k'` both containing the same point coincide. -/

theorem bucket_mem_unique {x : ℚ} {k k' : ℕ}
    (h1 : ((6 * (k : ℤ) : ℤ) : ℚ) ≤ x) (h2 : x < ((6 * (k : ℤ) : ℤ) : ℚ) + 6)
    (h1' : ((6 * (k' : ℤ) : ℤ) : ℚ) ≤ x) (h2' : x < ((6 * (k' : ℤ) : ℤ) : ℚ) + 6) :
    k = k' := by
  have c1 : ((6 * (k' : ℤ) : ℤ) : ℚ) < ((6 * (k : ℤ) + 6 : ℤ) : ℚ) := by
    push_cast
    push_cast at h1' h2
    linarith
  have c2 : ((6 * (k : ℤ) : ℤ) : ℚ) < ((6 * (k' : ℤ) + 6 : ℤ) : ℚ) := by
    push_cast
    push_cast at h1 h2'
    linarith
  have d1 : (6 * (k' : ℤ) : ℤ) < 6 * (k : ℤ) + 6 := Int.cast_lt.mp c1
  have d2 : (6 * (k : ℤ) : ℤ) < 6 * (k' : ℤ) + 6 := Int.cast_lt.mp c2
  omega

/-! ### Claims C1 and C7 -/

/-- C1, counterexample to the claim as stated: the bucket `[0, 6)` of the
input `[(0, "")]` is non-empty (it contains the entry with start `0`), yet
the normalizer emits no line at all for it — emission is tested on the
joined *text*, not on bucket non-emptiness. -/

theorem C1_counterexample :
    bucketTexts [((0 : ℚ), ([] : List Char))] 0 ≠ [] ∧
      (0 : ℚ) ≤ 0 ∧ (0 : ℚ) < 0 + 6 ∧
      normalizeEntries [((0 : ℚ), ([] : List Char))] = [] := by
  refine ⟨by decide, le_refl 0, by norm_num, by decide⟩

/-- C1 (amended): for entries with non-negative starts, the normalizer
enumerates buckets `b = 6k` for `0 ≤ b ≤ trunc(max start)`; it emits exactly
one line `(b, text)` for each bucket whose space-joined member text is
non-empty (in particular for every bucket containing an entry with non-empty
text), with the member texts taken in ascending start order; buckets with an
empty joined text (in particular empty buckets) produce nothing, and an empty
entry list produces no lines.  Entries with starts 0 and 7 (non-empty texts)
yield exactly the bucket starts 0 and 6. -/

theorem C1_bucket_enumeration (entries : List Entry) (h0 : ∀ e ∈ entries, 0 ≤ e.1) :
    (∀ b t, (b, t) ∈ normalizeEntries entries →
        (∃ k : ℕ, b = 6 * (k : ℤ)) ∧ 0 ≤ b ∧ b ≤ maxStartI (sortEntries entries) ∧
        t = joinSpace (bucketTexts entries b) ∧ t ≠ []) ∧
    (∀ k : ℕ, 6 * (k : ℤ) ≤ maxStartI (sortEntries entries) →
        joinSpace (bucketTexts entries (6 * (k : ℤ))) ≠ [] →
        (6 * (k : ℤ), joinSpace (bucketTexts entries (6 * (k : ℤ)))) ∈ normalizeEntries entries) ∧
    (entries = [] → normalizeEntries entries = []) ∧
    (normalizeEntries [((0 : ℚ), ['a']), ((7 : ℚ), ['b'])]).map Prod.fst = [0, 6] := by
  have h0s : ∀ x ∈ sortEntries entries, 0 ≤ x.1 := fun x hx => h0 x (mem_sortEntries.mp hx)
  refine ⟨?_, ?_, ?_, by decide⟩
  · intro b t hmem
    rcases mem_normalizeEntries_iff.mp hmem with ⟨-, ⟨k, rfl⟩, hle, ht, hne⟩
    exact ⟨⟨k, rfl⟩, by positivity, hle, ht, hne⟩
  · intro k hle hne
    exact mem_normalizeEntries_iff.mpr ⟨maxStartI_nonneg h0s, ⟨k, rfl⟩, hle, rfl, hne⟩
  · rintro rfl
    rfl

/-- C1 witness: the amended theorem applied at the concrete two-entry input. -/

theorem C1_witness :
    (∀ e ∈ ([((0 : ℚ), ['a']), ((7 : ℚ), ['b'])] : List Entry), 0 ≤ e.1) ∧
      (normalizeEntries [((0 : ℚ), ['a']), ((7 : ℚ), ['b'])]).map Prod.fst = [0, 6] :=
  ⟨by decide,
    (C1_bucket_enumeration [((0 : ℚ), ['a']), ((7 : ℚ), ['b'])] (by decide)).2.2.2⟩

/-- C7, counterexample to the claim as stated: the single entry `(2, "")`
falls in bucket `[0, 6)`, but no line is emitted at all, so its text is not
included in any emitted NormalizedLine. -/

theorem C7_counterexample :
    ((2 : ℚ), ([] : List Char)) ∈ ([((2 : ℚ), ([] : List Char))] : List Entry) ∧
      normalizeEntries [((2 : ℚ), ([] : List Char))] = [] := by
  exact ⟨List.mem_singleton.mpr rfl, by decide⟩

/-- C7 (amended): for entries with non-negative starts, every entry with
non-empty text is included in the member-text list of exactly one emitted
line — the line of the unique bucket `b = 6k` with `b ≤ start < b + 6` —
and is therefore never dropped. -/

theorem C7_entry_coverage (entries : List Entry) (h0 : ∀ e ∈ entries, 0 ≤ e.1) :
    ∀ e ∈ entries, e.2 ≠ [] →
      ∃ b t, (b, t) ∈ normalizeEntries entries ∧
        (b : ℚ) ≤ e.1 ∧ e.1 < (b : ℚ) + 6 ∧ e.2 ∈ bucketTexts entries b ∧
        t = joinSpace (bucketTexts entries b) ∧
        ∀ b' t', (b', t') ∈ normalizeEntries entries →
          (b' : ℚ) ≤ e.1 → e.1 < (b' : ℚ) + 6 → b' = b ∧ t' = t := by
  intro e he hetext
  have he0 : 0 ≤ e.1 := h0 e he
  obtain ⟨hb1, hb2⟩ := bucket_bounds he0
  set k : ℕ := ⌊e.1⌋.toNat / 6 with hkdef
  set b : ℤ := 6 * (k : ℤ) with hbdef
  have hb1' : (b : ℚ) ≤ e.1 := hb1
  have hb2' : e.1 < (b : ℚ) + 6 := hb2
  have h0s : ∀ x ∈ sortEntries entries, 0 ≤ x.1 := fun x hx => h0 x (mem_sortEntries.mp hx)
  have hmemf : e ∈ bucketFilter (sortEntries entries) b :=
    mem_bucketFilter.mpr ⟨mem_sortEntries.mpr he, hb1', hb2'⟩
  have htex : e.2 ∈ bucketTexts entries b := List.mem_map_of_mem Prod.snd hmemf
  have hjoin : joinSpace (bucketTexts entries b) ≠ [] := joinSpace_ne_nil_of_mem htex hetext
  have hle_max : e.1 ≤ maxQ (sortEntries entries) :=
    le_maxQ_of_mem (sortEntries_sorted entries) e (mem_sortEntries.mpr he)
  have hbmax : b ≤ maxStartI (sortEntries entries) := by
    rw [maxStartI, truncQ_eq_floor (maxQ_nonneg h0s)]
    exact Int.le_floor.mpr (le_trans hb1' hle_max)
  refine ⟨b, joinSpace (bucketTexts entries b),
    mem_normalizeEntries_iff.mpr ⟨maxStartI_nonneg h0s, ⟨k, rfl⟩, hbmax, rfl, hjoin⟩,
    hb1', hb2', htex, rfl, ?_⟩
  intro b' t' hmem' hb1'' hb2''
  rcases mem_normalizeEntries_iff.mp hmem' with ⟨-, ⟨k', hk'⟩, -, ht', -⟩
  have hkk : k' = k := by
    apply bucket_mem_unique (x := e.1)
    · exact hk' ▸ hb1''
    · exact hk' ▸ hb2''
    · exact hb1'
    · exact hb2'
  subst hkk
  rw [hk'] at ht' ⊢
  exact ⟨rfl, ht'⟩

/-- C7 witness: the amended theorem applied at the concrete input `[(2, "x")]`. -/

theorem C7_witness :
    (∀ e ∈ ([((2 : ℚ), ['x'])] : List Entry), 0 ≤ e.1) ∧
      (∃ b t, (b, t) ∈ normalizeEntries [((2 : ℚ), ['x'])] ∧
        (b : ℚ) ≤ (2 : ℚ) ∧ (2 : ℚ) < (b : ℚ) + 6 ∧
        ['x'] ∈ bucketTexts [((2 : ℚ), ['x'])] b ∧
        t = joinSpace (bucketTexts [((2 : ℚ), ['x'])] b) ∧
        ∀ b' t', (b', t') ∈ normalizeEntries [((2 : ℚ), ['x'])] →
          (b' : ℚ) ≤ (2 : ℚ) → (2 : ℚ) < (b' : ℚ) + 6 → b' = b ∧ t' = t) :=
  ⟨by decide, C7_entry_coverage _ (by decide) ((2 : ℚ), ['x']) (List.mem_singleton.mpr rfl)
    (by decide)⟩

/-! ### Claim C2 -/

/-- C2, counterexample to the claim as stated: two orderings of the same set
of entries with a tied start time produce different merged texts, because the
sort is stable and ties keep their input order. -/

theorem C2_counterexample :
    ([((0 : ℚ), ['a']), ((0 : ℚ), ['b'])] : List Entry).Perm
        [((0 : ℚ), ['b']), ((0 : ℚ), ['a'])] ∧
      normalizeEntries [((0 : ℚ), ['a']), ((0 : ℚ), ['b'])] ≠
        normalizeEntries [((0 : ℚ), ['b']), ((0 : ℚ), ['a'])] :=
  ⟨List.Perm.swap ((0 : ℚ), ['b']) ((0 : ℚ), ['a']) [], by decide⟩

theorem keySorted_strict {l : List Entry} (hs : KeySorted l)
    (hnd : (l.map Prod.fst).Nodup) :
    List.Pairwise (fun a b : Entry => a.1 < b.1) l := by
  have hne : List.Pairwise (fun a b : Entry => a.1 ≠ b.1) l := List.pairwise_map.mp hnd
  exact (List.Pairwise.and hs hne).imp (fun h => lt_of_le_of_ne h.1 h.2)

/-- C2 (amended): normalization is invariant under permutation of the input
provided the start times are pairwise distinct (for tied start times the
stable sort preserves input order, so the merged text of the tied bucket
depends on the input order). -/

theorem C2_permutation_invariance (l₁ l₂ : List Entry) (hp : l₁.Perm l₂)
    (hnd : (l₁.map Prod.fst).Nodup) :
    normalizeEntries l₁ = normalizeEntries l₂ := by
  have hsort : sortEntries l₁ = sortEntries l₂ := by
    have hp1 : (sortEntries l₁).Perm (sortEntries l₂) :=
      ((sortEntries_perm l₁).trans hp).trans (sortEntries_perm l₂).symm
    have hnd1 : ((sortEntries l₁).map Prod.fst).Nodup :=
      (((sortEntries_perm l₁).map Prod.fst).nodup_iff).mpr hnd
    have hnd2 : ((sortEntries l₂).map Prod.fst).Nodup :=
      (((sortEntries_perm l₂).map Prod.fst).nodup_iff).mpr ((hp.map Prod.fst).nodup_iff.mp hnd)
    have hs1 := keySorted_strict (sortEntries_sorted l₁) hnd1
    have hs2 := keySorted_strict (sortEntries_sorted l₂) hnd2
    haveI : IsAntisymm Entry (fun a b : Entry => a.1 < b.1) :=
      ⟨fun a b h1 h2 => absurd h2 (not_lt.mpr (le_of_lt h1))⟩
    exact List.eq_of_perm_of_sorted hp1 hs1 hs2
  simp only [normalizeEntries, hsort]

/-- C2 witness: the amended theorem applied to two concrete orderings of a
two-entry set with distinct starts. -/

theorem C2_witness :
    ([((0 : ℚ), ['a']), ((7 : ℚ), ['b'])] : List Entry).Perm
        [((7 : ℚ), ['b']), ((0 : ℚ), ['a'])] ∧
      (([((0 : ℚ), ['a']), ((7 : ℚ), ['b'])] : List Entry).map Prod.fst).Nodup ∧
      normalizeEntries [((0 : ℚ), ['a']), ((7 : ℚ), ['b'])] =
        normalizeEntries [((7 : ℚ), ['b']), ((0 : ℚ), ['a'])] :=
  ⟨List.Perm.swap ((7 : ℚ), ['b']) ((0 : ℚ), ['a']) [], by decide,
    C2_permutation_invariance _ _ (List.Perm.swap ((7 : ℚ), ['b']) ((0 : ℚ), ['a']) [])
      (by decide)⟩

theorem lineToEntry_keySorted {out : List (ℤ × List Char)}
    (hp : List.Pairwise (fun a b : ℤ × List Char => a.1 < b.1) out) :
    KeySorted (out.map lineToEntry) := by
  rw [KeySorted, List.Sorted, List.pairwise_map]
  refine hp.imp (fun h => ?_)
  simp only [lineToEntry]
  exact_mod_cast le_of_lt h

theorem sortEntries_lineToEntry {out : List (ℤ × List Char)}
    (hp : List.Pairwise (fun a b : ℤ × List Char => a.1 < b.1) out) :
    sortEntries (out.map lineToEntry) = out.map lineToEntry :=
  List.Sorted.insertionSort_eq (lineToEntry_keySorted hp)

theorem bucketFilter_map_lineToEntry (out : List (ℤ × List Char)) (c : ℤ) :
    bucketFilter (out.map lineToEntry) c =
      (out.filter (fun x => decide (c ≤ x.1 ∧ x.1 < c + 6))).map lineToEntry := by
  rw [bucketFilter, List.filter_map]
  congr 1
  apply List.filter_congr
  intro x _
  simp only [Function.comp, lineToEntry, Bool.decide_and]
  congr 1
  · apply decide_eq_decide.mpr
    exact Int.cast_le
  · apply decide_eq_decide.mpr
    constructor
    · intro h
      exact_mod_cast h
    · intro h
      exact_mod_cast h

theorem filter_key_of_mem {l : List (ℤ × List Char)}
    (hp : List.Pairwise (fun a b : ℤ × List Char => a.1 < b.1) l) {c : ℤ} {t : List Char}
    (hmem : (c, t) ∈ l) :
    l.filter (fun x => decide (x.1 = c)) = [(c, t)] := by
  induction l with
  | nil => cases hmem
  | cons x xs ih =>
    rcases List.mem_cons.mp hmem with rfl | hxs
    · have htail : xs.filter (fun x => decide (x.1 = c)) = [] := by
        apply List.filter_eq_nil_iff.mpr
        intro y hy
        have hlt : c < y.1 := (List.pairwise_cons.mp hp).1 y hy
        simp only [decide_eq_true_eq]
        omega
      simp [List.filter_cons, htail]
    · have hxc : x.1 < c := (List.pairwise_cons.mp hp).1 (c, t) hxs
      have hxf : decide (x.1 = c) = false := by
        simp only [decide_eq_false_iff_not]
        omega
      simp only [List.filter_cons, hxf, Bool.false_eq_true, if_false]
      exact ih (List.pairwise_cons.mp hp).2 hxs

/-- C8: re-normalizing the normalizer's own output (each emitted line's
bucket timestamp re-read as an entry start, text carried along) yields
exactly the same set of bucket_start values as the first application. -/

theorem C8_idempotence (es : List Entry) (b : ℤ) :
    (b ∈ (normalizeEntries ((normalizeEntries es).map lineToEntry)).map Prod.fst ↔
      b ∈ (normalizeEntries es).map Prod.fst) := by
  set out := normalizeEntries es with hout
  have hpw : List.Pairwise (fun a b : ℤ × List Char => a.1 < b.1) out := by
    rw [hout]
    exact normalizeEntries_pairwise es
  have hkey : ∀ xb xt, (xb, xt) ∈ out → (∃ k : ℕ, xb = 6 * (k : ℤ)) ∧ xt ≠ [] := by
    intro xb xt hx
    rw [hout] at hx
    rcases mem_normalizeEntries_iff.mp hx with ⟨-, hk, -, -, hne⟩
    exact ⟨hk, hne⟩
  have h0' : ∀ e ∈ out.map lineToEntry, 0 ≤ e.1 := by
    intro e he
    rcases List.mem_map.mp he with ⟨x, hx, rfl⟩
    rcases (hkey x.1 x.2 (by rw [Prod.mk.eta]; exact hx)).1 with ⟨k, hk⟩
    simp only [lineToEntry, hk]
    positivity
  have hsorted' : sortEntries (out.map lineToEntry) = out.map lineToEntry :=
    sortEntries_lineToEntry hpw
  have h0s' : ∀ e ∈ sortEntries (out.map lineToEntry), 0 ≤ e.1 := by
    rw [hsorted']
    exact h0'
  constructor
  · intro hb
    rcases List.mem_map.mp hb with ⟨⟨b', t'⟩, hmem', rfl⟩
    rcases mem_normalizeEntries_iff.mp hmem' with ⟨-, ⟨k, rfl⟩, -, ht', hne⟩
    rw [bucketTexts, hsorted', bucketFilter_map_lineToEntry] at ht'
    have hfilne :
        out.filter (fun x => decide (6 * (k : ℤ) ≤ x.1 ∧ x.1 < 6 * (k : ℤ) + 6)) ≠ [] := by
      intro hnil
      rw [hnil] at ht'
      simp [joinSpace] at ht'
      exact hne ht'
    rcases List.exists_mem_of_ne_nil _ hfilne with ⟨x, hxf⟩
    rcases List.mem_filter.mp hxf with ⟨hxout, hxpred⟩
    rw [decide_eq_true_eq] at hxpred
    rcases (hkey x.1 x.2 (by rw [Prod.mk.eta]; exact hxout)).1 with ⟨j, hj⟩
    have hxb : x.1 = 6 * (k : ℤ) := by omega
    exact List.mem_map.mpr ⟨x, hxout, hxb⟩
  · intro hb
    rcases List.mem_map.mp hb with ⟨⟨b', t⟩, hmem, rfl⟩
    have hmem' := hmem
    rw [hout] at hmem'
    rcases mem_normalizeEntries_iff.mp hmem' with ⟨-, ⟨k, hk⟩, -, -, hne⟩
    subst hk
    refine List.mem_map.mpr ⟨(6 * (k : ℤ), t), ?_, rfl⟩
    apply mem_normalizeEntries_iff.mpr
    have hmax : ((6 * (k : ℤ) : ℤ) : ℚ) ≤ maxQ (sortEntries (out.map lineToEntry)) := by
      rw [hsorted']
      exact le_maxQ_of_mem (lineToEntry_keySorted hpw) (lineToEntry (6 * (k : ℤ), t))
        (List.mem_map_of_mem lineToEntry hmem)
    refine ⟨maxStartI_nonneg h0s', ⟨k, rfl⟩, ?_, ?_, hne⟩
    · rw [maxStartI, truncQ_eq_floor (maxQ_nonneg h0s')]
      exact Int.le_floor.mpr hmax
    · rw [bucketTexts, hsorted', bucketFilter_map_lineToEntry]
      have hfc : out.filter (fun x => decide (6 * (k : ℤ) ≤ x.1 ∧ x.1 < 6 * (k : ℤ) + 6)) =
          out.filter (fun x => decide (x.1 = 6 * (k : ℤ))) := by
        apply List.filter_congr
        intro x hx
        rcases (hkey x.1 x.2 (by rw [Prod.mk.eta]; exact hx)).1 with ⟨j, hj⟩
        apply decide_eq_decide.mpr
        constructor
        · intro h
          omega
        · intro h
          omega
      rw [hfc, filter_key_of_mem hpw hmem]
      simp [lineToEntry, joinSpace]

/-! ### Claim C9 -/

theorem pad2_length_of_lt_60 {s : ℤ} (h0 : 0 ≤ s) (h60 : s < 60) : (pad2 s).length = 2 := by
  have hball : ∀ n : ℕ, n < 60 → (pad2 (n : ℤ)).length = 2 := by decide
  have := hball s.toNat (by omega)
  rwa [Int.toNat_of_nonneg h0] at this

theorem fmodQ_60_nonneg {q : ℚ} (hq : 0 ≤ q) : 0 ≤ fmodQ q 60 ∧ fmodQ q 60 < 60 := by
  have htr : truncDivNat q 60 = ⌊q / (60 : ℚ)⌋ := by
    rw [truncDivNat, if_neg (not_lt.mpr hq), floorDivNat_eq]
    norm_num
  have hf : fmodQ q 60 = 60 * Int.fract (q / 60) := by
    rw [fmodQ, htr, Int.fract]
    push_cast
    ring
  constructor
  · rw [hf]
    have := Int.fract_nonneg (q / (60 : ℚ))
    linarith
  · rw [hf]
    have := Int.fract_lt_one (q / (60 : ℚ))
    linarith

/-- C9: the raw entry formatter renders a start time as bracketed
`minutes:seconds` with minutes `⌊start/60⌋` and seconds `⌊start mod 60⌋`,
both passed through width-2 zero-padding (so the seconds field is always
exactly two characters); start 65 renders as `[01:05]`.  The normalizer, in
contrast, renders its bucket lines with *unpadded* minutes: bucket 6 renders
as `[0:06]`. -/

theorem C9_formatting :
    (∀ q : ℚ, 0 ≤ q →
        format_time q =
          '[' :: (pad2 ⌊q / (60 : ℚ)⌋ ++ ':' :: (pad2 ⌊fmodQ q 60⌋ ++ [']'])) ∧
        (pad2 ⌊fmodQ q 60⌋).length = 2) ∧
    format_time 65 = "[01:05]".toList ∧
    normalizeRender [((6 : ℚ), ['x'])] = "[0:06] x\n".toList := by
  refine ⟨?_, by decide, by decide⟩
  intro q hq
  obtain ⟨hm0, hm60⟩ := fmodQ_60_nonneg hq
  refine ⟨format_time_spec q, ?_⟩
  exact pad2_length_of_lt_60 (Int.floor_nonneg.mpr hm0) (Int.floor_lt.mpr (by exact_mod_cast hm60))

/-- C9 witness: the padded-format characterization applied at start 125. -/

theorem C9_witness :
    (0 : ℚ) ≤ 125 ∧
      format_time 125 =
        '[' :: (pad2 ⌊(125 : ℚ) / (60 : ℚ)⌋ ++ ':' :: (pad2 ⌊fmodQ 125 60⌋ ++ [']'])) :=
  ⟨by decide, (C9_formatting.1 125 (by decide)).1⟩

theorem findSub_eq_none_iff {l pat : List Char} :
    findSub l pat = none ↔ ∀ i, ¬(pat.isPrefixOf (l.drop i) = true) := by
  induction l with
  | nil =>
    rw [findSub]
    by_cases h : pat.isPrefixOf ([] : List Char) = true
    · rw [if_pos h]
      simp only [List.drop_nil]
      constructor
      · rintro ⟨⟩
      · intro hall
        exact absurd h (hall 0)
    · rw [if_neg h]
      simp only [List.drop_nil, true_iff]
      exact fun _ => h
  | cons c t ih =>
    rw [findSub]
    by_cases h : pat.isPrefixOf (c :: t) = true
    · rw [if_pos h]
      constructor
      · rintro ⟨⟩
      · intro hall
        exact absurd h (by simpa using hall 0)
    · rw [if_neg h]
      constructor
      · intro hnone i
        have ht : findSub t pat = none := by
          rcases hfs : findSub t pat with - | v
          · rfl
          · rw [hfs] at hnone
            simp at hnone
        cases i with
        | zero => simpa using h
        | succ i2 =>
          rw [List.drop_succ_cons]
          exact ih.mp ht i2
      · intro hall
        have ht : findSub t pat = none := ih.mpr (fun i => by
          have := hall (i + 1)
          rwa [List.drop_succ_cons] at this)
        rw [ht]
        rfl

theorem findSub_eq_some_iff {l pat : List Char} {i : ℕ} :
    findSub l pat = some i ↔
      pat.isPrefixOf (l.drop i) = true ∧ ∀ j < i, ¬(pat.isPrefixOf (l.drop j) = true) := by
  induction l generalizing i with
  | nil =>
    rw [findSub]
    by_cases h : pat.isPrefixOf ([] : List Char) = true
    · rw [if_pos h]
      simp only [List.drop_nil, Option.some.injEq]
      constructor
      · rintro rfl
        exact ⟨h, by omega⟩
      · rintro ⟨-, hleast⟩
        by_contra hne
        exact hleast 0 (by omega) h
    · rw [if_neg h]
      simp only [List.drop_nil]
      constructor
      · rintro ⟨⟩
      · rintro ⟨hpre, -⟩
        exact absurd hpre h
  | cons c t ih =>
    rw [findSub]
    by_cases h : pat.isPrefixOf (c :: t) = true
    · rw [if_pos h]
      simp only [Option.some.injEq]
      constructor
      · rintro rfl
        exact ⟨by simpa using h, by omega⟩
      · rintro ⟨-, hleast⟩
        by_contra hne
        exact hleast 0 (by omega) (by simpa using h)
    · rw [if_neg h]
      constructor
      · intro hmap
        rcases Option.map_eq_some'.mp hmap with ⟨i2, hfs, rfl⟩
        rcases ih.mp hfs with ⟨hpre, hleast⟩
        refine ⟨by rwa [List.drop_succ_cons], ?_⟩
        intro j hj
        cases j with
        | zero => simpa using h
        | succ j2 =>
          rw [List.drop_succ_cons]
          exact hleast j2 (by omega)
      · rintro ⟨hpre, hleast⟩
        cases i with
        | zero => exact absurd (by simpa using hpre) h
        | succ i2 =>
          have hfs : findSub t pat = some i2 := by
            apply ih.mpr
            refine ⟨by rwa [List.drop_succ_cons] at hpre, ?_⟩
            intro j hj
            have := hleast (j + 1) (by omega)
            rwa [List.drop_succ_cons] at this
          rw [hfs]
          rfl

theorem not_prefix_of_all_bounded {pat l : List Char} (hne : pat ≠ [])
    (h : ∀ i ≤ l.length, ¬(pat.isPrefixOf (l.drop i) = true)) :
    ∀ i, ¬(pat.isPrefixOf (l.drop i) = true) := by
  intro i
  by_cases hi : i ≤ l.length
  · exact h i hi
  · have hd : l.drop i = [] := List.drop_eq_nil_of_le (by omega)
    rw [hd]
    cases pat with
    | nil => exact absurd rfl hne
    | cons c cs => simp [List.isPrefixOf]

/-! ### Claim C4 -/

/-- C4: the extractor returns nothing when the start marker is absent;
otherwise it returns the substring strictly between the end of the first
start-marker occurrence and the first end-marker occurrence after it, or the
entire remainder when the end marker is absent there.  On the example HTML
it extracts the JSON object text. -/

theorem C4_extract_json (html : List Char) :
    ((∀ i ≤ html.length, ¬(startMarker.isPrefixOf (html.drop i) = true)) →
        extract_json html = none) ∧
    (∀ i, startMarker.isPrefixOf (html.drop i) = true →
      (∀ j < i, ¬(startMarker.isPrefixOf (html.drop j) = true)) →
      ((∀ j ≤ (html.drop (i + startMarker.length)).length,
          ¬(endMarker.isPrefixOf ((html.drop (i + startMarker.length)).drop j) = true)) →
        extract_json html = some (html.drop (i + startMarker.length))) ∧
      (∀ j, endMarker.isPrefixOf ((html.drop (i + startMarker.length)).drop j) = true →
        (∀ j' < j, ¬(endMarker.isPrefixOf ((html.drop (i + startMarker.length)).drop j') = true)) →
        extract_json html = some ((html.drop (i + startMarker.length)).take j))) ∧
    extract_json ("prefix ytInitialPlayerResponse = \x7b\"a\":1\x7d;</script>suffix".toList) =
      some ("\x7b\"a\":1\x7d".toList) := by
  refine ⟨?_, ?_, by decide⟩
  · intro hb
    have hnone : findSub html startMarker = none :=
      findSub_eq_none_iff.mpr (not_prefix_of_all_bounded (by decide) hb)
    rw [extract_json, hnone]
    rfl
  · intro i hpre hleast
    have hfs : findSub html startMarker = some i := findSub_eq_some_iff.mpr ⟨hpre, hleast⟩
    constructor
    · intro hb
      have hnone : findSub (html.drop (i + startMarker.length)) endMarker = none :=
        findSub_eq_none_iff.mpr (not_prefix_of_all_bounded (by decide) hb)
      rw [extract_json, hfs, Option.map_some']
      simp only [hnone, Option.getD_none, List.take_length]
    · intro j hj hjleast
      have hsome : findSub (html.drop (i + startMarker.length)) endMarker = some j :=
        findSub_eq_some_iff.mpr ⟨hj, hjleast⟩
      rw [extract_json, hfs, Option.map_some']
      simp only [hsome, Option.getD_some]

/-- C4 witness: both branches exercised on concrete inputs (marker absent,
and the example where the marker and terminator are both present). -/

theorem C4_witness :
    (∀ i ≤ ("no marker here".toList).length,
        ¬(startMarker.isPrefixOf (("no marker here".toList).drop i) = true)) ∧
      extract_json ("no marker here".toList) = none :=
  ⟨by decide, (C4_extract_json ("no marker here".toList)).1 (by decide)⟩

theorem asArr_eq_some {j : Json} {l : List Json} : Json.asArr j = some l ↔ j = Json.arr l := by
  cases j <;> simp [Json.asArr]

theorem asStr_eq_some {j : Json} {s : List Char} : Json.asStr j = some s ↔ j = Json.str s := by
  cases j <;> simp [Json.asStr]

/-! ### Claim C5 -/

/-- C5: the locator yields a URL exactly when the full path
`captions → playerCaptionsTracklistRenderer → captionTracks` resolves to a
non-empty array whose *first* element has a string `baseUrl` — the remaining
tracks never influence the result — and yields `none` (the `NoCaptions`
outcome) in every other case; in particular on data missing the `captions`
key. -/

theorem C5_locate_base_url (j : Json) :
    (∀ u : List Char,
      locateBaseUrl j = some u ↔
        ∃ c p first_track rest,
          j.get ("captions".toList) = some c ∧
          c.get ("playerCaptionsTracklistRenderer".toList) = some p ∧
          p.get ("captionTracks".toList) = some (Json.arr (first_track :: rest)) ∧
          first_track.get ("baseUrl".toList) = some (Json.str u)) ∧
    locateBaseUrl (Json.obj [("other".toList, Json.null)]) = none := by
  refine ⟨?_, rfl⟩
  intro u
  constructor
  · intro h
    rw [locateBaseUrl] at h
    rcases Option.bind_eq_some.mp h with ⟨t, hE, hf5⟩
    rcases Option.bind_eq_some.mp hE with ⟨tracks, hD, hhead⟩
    rcases Option.bind_eq_some.mp hD with ⟨ts, hC, harr⟩
    rcases Option.bind_eq_some.mp hC with ⟨p, hB, hct⟩
    rcases Option.bind_eq_some.mp hB with ⟨c, hA, hpr⟩
    rcases Option.bind_eq_some.mp hf5 with ⟨bu, hbu, hstr⟩
    rw [asArr_eq_some] at harr
    rw [asStr_eq_some] at hstr
    subst harr
    subst hstr
    cases tracks with
    | nil => cases hhead
    | cons t0 rest =>
      have ht0 : t0 = t := by
        have := hhead
        simp only [List.head?_cons, Option.some.injEq] at this
        exact this
      subst ht0
      exact ⟨c, p, t0, rest, hA, hpr, hct, hbu⟩
  · rintro ⟨c, p, t, rest, h1, h2, h3, h4⟩
    simp only [locateBaseUrl, h1, Option.some_bind, h2, h3, Json.asArr, List.head?_cons, h4,
      Json.asStr]

/-- C5 witness: the characterization applied to a concrete two-track value
(the second track's content is irrelevant). -/

theorem C5_witness :
    locateBaseUrl (Json.obj [("captions".toList,
      Json.obj [("playerCaptionsTracklistRenderer".toList,
        Json.obj [("captionTracks".toList,
          Json.arr [Json.obj [("baseUrl".toList, Json.str ("URL".toList))],
            Json.str ("other".toList)])])])]) = some ("URL".toList) :=
  ((C5_locate_base_url _).1 _).mpr ⟨_, _, _, _, rfl, rfl, rfl, rfl⟩

theorem expectLit_eq_some {cs : List Char} :
    ∀ {s r : List Char}, expectLit cs s = some r → s = cs ++ r := by
  induction cs with
  | nil =>
    intro s r h
    rw [expectLit] at h
    cases h
    rfl
  | cons c cs2 ih =>
    intro s r h
    cases s with
    | nil => cases h
    | cons x xs =>
      rw [expectLit] at h
      by_cases hcx : c = x
      · rw [if_pos hcx] at h
        subst hcx
        rw [List.cons_append, ih h]
      · rw [if_neg hcx] at h
        cases h

theorem expectLit_append (cs r : List Char) : expectLit cs (cs ++ r) = some r := by
  induction cs with
  | nil => rfl
  | cons c cs2 ih =>
    rw [List.cons_append, expectLit, if_pos rfl]
    exact ih

/-- A successful match consumes at least the opening literal, so the
remainder is strictly shorter. -/

theorem matchTextElem_rest_length {s a d c r : List Char}
    (h : matchTextElem s = some (a, d, c, r)) : r.length < s.length := by
  rw [matchTextElem] at h
  split at h
  · cases h
  rename_i s1 h1
  split at h
  · cases h
  rename_i ha
  split at h
  · cases h
  rename_i s2 h2
  split at h
  · cases h
  rename_i hd
  split at h
  · cases h
  rename_i s3 h3
  split at h
  · cases h
  rename_i s4 h4
  split at h
  · cases h
  rename_i hc
  split at h
  · cases h
  rename_i s5 h5
  cases h
  have hlen1 : s.length = litTextStart.length + s1.length := by
    rw [expectLit_eq_some h1, List.length_append]
  have hd1 : (s1.dropWhile (· ≠ '"')).length ≤ s1.length :=
    List.IsSuffix.length_le (List.dropWhile_suffix _)
  have hlen2 : (s1.dropWhile (· ≠ '"')).length = litDur.length + s2.length := by
    rw [expectLit_eq_some h2, List.length_append]
  have hd2 : (s2.dropWhile (· ≠ '"')).length ≤ s2.length :=
    List.IsSuffix.length_le (List.dropWhile_suffix _)
  have hlen3 : (s2.dropWhile (· ≠ '"')).length = litQuote.length + s3.length := by
    rw [expectLit_eq_some h3, List.length_append]
  have hd3 : (s3.dropWhile (· ≠ '>')).length ≤ s3.length :=
    List.IsSuffix.length_le (List.dropWhile_suffix _)
  have hlen4 : (s3.dropWhile (· ≠ '>')).length = litGt.length + s4.length := by
    rw [expectLit_eq_some h4, List.length_append]
  have hd4 : (s4.dropWhile (· ≠ '<')).length ≤ s4.length :=
    List.IsSuffix.length_le (List.dropWhile_suffix _)
  have hlen5 : (s4.dropWhile (· ≠ '<')).length = litClose.length + r.length := by
    rw [expectLit_eq_some h5, List.length_append]
  have e1 : litTextStart.length = 13 := rfl
  have e2 : litDur.length = 7 := rfl
  have e3 : litQuote.length = 1 := rfl
  have e4 : litGt.length = 1 := rfl
  have e5 : litClose.length = 7 := rfl
  omega

theorem scanAux_nil (fuel : ℕ) : scanAux fuel [] = [] := by
  cases fuel <;> rfl

theorem scanAux_eq_of_le {fuel : ℕ} :
    ∀ {s : List Char} {fuel' : ℕ}, s.length ≤ fuel → s.length ≤ fuel' →
      scanAux fuel s = scanAux fuel' s := by
  induction fuel with
  | zero =>
    intro s fuel' h1 _
    have : s = [] := List.eq_nil_of_length_eq_zero (by omega)
    subst this
    rw [scanAux_nil, scanAux_nil]
  | succ f ihf =>
    intro s fuel' h1 h2
    cases s with
    | nil => rw [scanAux_nil, scanAux_nil]
    | cons ch rest =>
      cases fuel' with
      | zero => simp at h2
      | succ f' =>
        rw [scanAux, scanAux]
        rcases hm : matchTextElem (ch :: rest) with - | ⟨a, d, c, r⟩
        · simp only [hm]
          have hr : rest.length ≤ f := by simp at h1; omega
          have hr' : rest.length ≤ f' := by simp at h2; omega
          exact ihf hr hr'
        · simp only [hm]
          have hlt := matchTextElem_rest_length hm
          have hr : r.length ≤ f := by simp at h1 hlt; omega
          have hr' : r.length ≤ f' := by simp at h2 hlt; omega
          rw [ihf hr hr']

/-- Unfolding: a leftmost match is emitted and scanning resumes after it. -/

theorem scanTextElems_cons_match {ch : Char} {rest a d c r : List Char}
    (h : matchTextElem (ch :: rest) = some (a, d, c, r)) :
    scanTextElems (ch :: rest) = (a, d, c) :: scanTextElems r := by
  have hlt := matchTextElem_rest_length h
  have hle : r.length ≤ rest.length := by simp at hlt; omega
  rw [scanTextElems, List.length_cons, scanAux]
  simp only [h]
  rw [scanTextElems]
  exact congrArg (List.cons (a, d, c)) (scanAux_eq_of_le hle (le_refl _))

/-- Unfolding: with no match at this position the scan advances one char. -/

theorem scanTextElems_cons_nomatch {ch : Char} {rest : List Char}
    (h : matchTextElem (ch :: rest) = none) :
    scanTextElems (ch :: rest) = scanTextElems rest := by
  rw [scanTextElems, List.length_cons, scanAux]
  simp only [h]
  rw [scanTextElems]

theorem parseItems_error_eq {caps : List (List Char × List Char × List Char)} {e : TErr}
    (h : parseItems caps = Except.error e) : e = TErr.malformedNumber := by
  induction caps with
  | nil => cases h
  | cons cap rest ih =>
    obtain ⟨s, d, t⟩ := cap
    rw [parseItems] at h
    rcases hs : parseF64 s with - | sv
    · rw [hs] at h
      cases h
      rfl
    rw [hs] at h
    rcases hd : parseF64 d with - | dv
    · rw [hd] at h
      cases h
      rfl
    rw [hd] at h
    rcases hrest : parseItems rest with e2 | items
    · rw [hrest] at h
      cases h
      exact ih hrest
    · rw [hrest] at h
      cases h

theorem parseItems_ok_length {caps : List (List Char × List Char × List Char)}
    {items : List TranscriptItem} (h : parseItems caps = Except.ok items) :
    items.length = caps.length := by
  induction caps generalizing items with
  | nil =>
    rw [parseItems] at h
    cases h
    rfl
  | cons cap rest ih =>
    obtain ⟨s, d, t⟩ := cap
    rw [parseItems] at h
    rcases hs : parseF64 s with - | sv
    · rw [hs] at h
      cases h
    rw [hs] at h
    rcases hd : parseF64 d with - | dv
    · rw [hd] at h
      cases h
    rw [hd] at h
    rcases hrest : parseItems rest with e2 | items2
    · rw [hrest] at h
      cases h
    · rw [hrest] at h
      cases h
      simp [ih hrest]

/-! ### Claim C6 -/

/-- C6: the parse step signals `EmptyTranscript` (an error distinct from
`NoCaptions`) exactly when the regex scan finds no transcript element, and
never raises it when at least one element matches; a feed with no `<text>`
elements is a concrete instance. -/

theorem C6_empty_transcript (xml : List Char) :
    (scanTextElems xml = [] → parseTranscript xml = Except.error TErr.emptyTranscript) ∧
    (scanTextElems xml ≠ [] → parseTranscript xml ≠ Except.error TErr.emptyTranscript) ∧
    TErr.emptyTranscript ≠ TErr.noCaptions ∧
    parseTranscript ("<transcript></transcript>".toList) =
      Except.error TErr.emptyTranscript := by
  refine ⟨?_, ?_, by decide, rfl⟩
  · intro hscan
    rw [parseTranscript, hscan]
    rfl
  · intro hne
    rw [parseTranscript]
    rcases hp : parseItems (scanTextElems xml) with e | items
    · simp only [hp]
      have := parseItems_error_eq hp
      subst this
      intro hcl
      cases hcl
    · simp only [hp]
      have hlen := parseItems_ok_length hp
      have hemp : items.isEmpty = false := by
        rcases hs : scanTextElems xml with - | ⟨c, cs⟩
        · exact absurd hs hne
        · rw [hs] at hlen
          rcases items with - | ⟨i, is⟩
          · simp at hlen
          · rfl
      rw [hemp]
      simp only [Bool.false_eq_true, if_false]
      intro hcl
      cases hcl

/-- C6 witness: a feed with one matching element does not yield
`EmptyTranscript`. -/

theorem C6_witness :
    scanTextElems ("<text start=\"0\" dur=\"1\">hi</text>".toList) ≠ [] ∧
      parseTranscript ("<text start=\"0\" dur=\"1\">hi</text>".toList) ≠
        Except.error TErr.emptyTranscript :=
  ⟨by decide, (C6_empty_transcript _).2.1 (by decide)⟩

/-! ### Claim C3 -/

theorem takeWhile_middle {p : Char → Bool} {a z : List Char} {y : Char}
    (ha : ∀ x ∈ a, p x = true) (hy : p y = false) :
    (a ++ y :: z).takeWhile p = a ∧ (a ++ y :: z).dropWhile p = y :: z := by
  induction a with
  | nil => simp [List.takeWhile_cons, List.dropWhile_cons, hy]
  | cons c cs ih =>
    have hc : p c = true := ha c (List.mem_cons_self c cs)
    have hrest := ih (fun x hx => ha x (List.mem_cons_of_mem c hx))
    simp [List.takeWhile_cons, List.dropWhile_cons, hc, hrest.1, hrest.2]

/-- C3, counterexample to the claim as stated: the element
`<text dur="1.0" start="0.0">hi</text>` — whose `dur` attribute precedes its
`start` attribute — is *not* matched (the scan yields nothing), while the
same element with `start` first is matched; matching therefore depends on
attribute order. -/

theorem C3_counterexample :
    scanTextElems ("<text dur=\"1.0\" start=\"0.0\">hi</text>".toList) = [] ∧
      scanTextElems ("<text start=\"0.0\" dur=\"1.0\">hi</text>".toList) =
        [("0.0".toList, "1.0".toList, "hi".toList)] := by
  decide

/-- C3 (amended): the parser matches a transcript element iff it has exactly
the shape `<text start="A" dur="D"MID>C</text>` — the `start` attribute
first (immediately after the tag name), `dur` second, and any extra
attributes only after `dur` (inside `MID`, which may not contain `>`);
attribute order therefore matters, while extra attributes after `dur` are
tolerated.  Concretely, an element with an extra `lang` attribute after
`dur` is matched, and one with `dur` before `start` is not. -/

theorem C3_attribute_order :
    (∀ s a d c r : List Char,
      matchTextElem s = some (a, d, c, r) ↔
        ∃ mid : List Char,
          s = litTextStart ++ (a ++ (litDur ++ (d ++ (litQuote ++ (mid ++ (litGt ++
            (c ++ (litClose ++ r)))))))) ∧
          a ≠ [] ∧ (∀ x ∈ a, x ≠ '"') ∧ d ≠ [] ∧ (∀ x ∈ d, x ≠ '"') ∧
          (∀ x ∈ mid, x ≠ '>') ∧ c ≠ [] ∧ (∀ x ∈ c, x ≠ '<')) ∧
    scanTextElems ("<text start=\"0\" dur=\"1\" lang=\"en\">hi</text>".toList) =
      [("0".toList, "1".toList, "hi".toList)] ∧
    scanTextElems ("<text dur=\"1\" start=\"0\">hi</text>".toList) = [] := by
  refine ⟨?_, by decide, by decide⟩
  intro s a d c r
  constructor
  · intro h
    rw [matchTextElem] at h
    split at h
    · cases h
    rename_i s1 h1
    split at h
    · cases h
    rename_i ha
    split at h
    · cases h
    rename_i s2 h2
    split at h
    · cases h
    rename_i hd
    split at h
    · cases h
    rename_i s3 h3
    split at h
    · cases h
    rename_i s4 h4
    split at h
    · cases h
    rename_i hc
    split at h
    · cases h
    rename_i s5 h5
    cases h
    set A := s1.takeWhile (fun x => decide (x ≠ '"')) with hA
    set D := s2.takeWhile (fun x => decide (x ≠ '"')) with hD
    set M := s3.takeWhile (fun x => decide (x ≠ '>')) with hM
    set C := s4.takeWhile (fun x => decide (x ≠ '<')) with hC
    have hs4 : s4 = C ++ (litClose ++ r) := by
      conv_lhs => rw [← List.takeWhile_append_dropWhile (p := fun x => decide (x ≠ '<'))
        (l := s4)]
      rw [expectLit_eq_some h5, hC]
    have hs3 : s3 = M ++ (litGt ++ s4) := by
      conv_lhs => rw [← List.takeWhile_append_dropWhile (p := fun x => decide (x ≠ '>'))
        (l := s3)]
      rw [expectLit_eq_some h4, hM]
    have hs2 : s2 = D ++ (litQuote ++ s3) := by
      conv_lhs => rw [← List.takeWhile_append_dropWhile (p := fun x => decide (x ≠ '"'))
        (l := s2)]
      rw [expectLit_eq_some h3, hD]
    have hs1 : s1 = A ++ (litDur ++ s2) := by
      conv_lhs => rw [← List.takeWhile_append_dropWhile (p := fun x => decide (x ≠ '"'))
        (l := s1)]
      rw [expectLit_eq_some h2, hA]
    refine ⟨M, ?_, ha, ?_, hd, ?_, ?_, hc, ?_⟩
    · rw [expectLit_eq_some h1, hs1, hs2, hs3, hs4]
    · intro x hx
      rw [hA] at hx
      exact of_decide_eq_true
        (List.mem_takeWhile_imp (p := fun y => decide (y ≠ '"')) hx)
    · intro x hx
      rw [hD] at hx
      exact of_decide_eq_true
        (List.mem_takeWhile_imp (p := fun y => decide (y ≠ '"')) hx)
    · intro x hx
      rw [hM] at hx
      exact of_decide_eq_true
        (List.mem_takeWhile_imp (p := fun y => decide (y ≠ '>')) hx)
    · intro x hx
      rw [hC] at hx
      exact of_decide_eq_true
        (List.mem_takeWhile_imp (p := fun y => decide (y ≠ '<')) hx)
  · rintro ⟨mid, hs, hane, haq, hdne, hdq, hmid, hcne, hclt⟩
    subst hs
    have tq1 := takeWhile_middle (p := fun x => decide (x ≠ '"')) (y := '"')
      (a := a)
      (z := " dur=\"".toList ++ (d ++ (litQuote ++ (mid ++ (litGt ++ (c ++ (litClose ++ r)))))))
      (fun x hx => decide_eq_true (haq x hx)) (by simp)
    have tq2 := takeWhile_middle (p := fun x => decide (x ≠ '"')) (y := '"')
      (a := d) (z := mid ++ (litGt ++ (c ++ (litClose ++ r))))
      (fun x hx => decide_eq_true (hdq x hx)) (by simp)
    have tg := takeWhile_middle (p := fun x => decide (x ≠ '>')) (y := '>')
      (a := mid) (z := c ++ (litClose ++ r))
      (fun x hx => decide_eq_true (hmid x hx)) (by simp)
    have tl := takeWhile_middle (p := fun x => decide (x ≠ '<')) (y := '<')
      (a := c) (z := "/text>".toList ++ r)
      (fun x hx => decide_eq_true (hclt x hx)) (by simp)
    rw [matchTextElem]
    rw [show (a ++ (litDur ++ (d ++ (litQuote ++ (mid ++ (litGt ++ (c ++ (litClose ++ r)))))))) =
        (a ++ '"' :: (" dur=\"".toList ++ (d ++ (litQuote ++ (mid ++ (litGt ++ (c ++
          (litClose ++ r)))))))) from rfl]
    simp only [expectLit_append]
    simp only [tq1.1, tq1.2]
    rw [if_neg hane]
    rw [show ('"' :: (" dur=\"".toList ++ (d ++ (litQuote ++ (mid ++ (litGt ++ (c ++
          (litClose ++ r)))))))) =
        (litDur ++ (d ++ (litQuote ++ (mid ++ (litGt ++ (c ++ (litClose ++ r)))))))
      from rfl]
    simp only [expectLit_append]
    rw [show (d ++ (litQuote ++ (mid ++ (litGt ++ (c ++ (litClose ++ r)))))) =
        (d ++ '"' :: (mid ++ (litGt ++ (c ++ (litClose ++ r))))) from rfl]
    simp only [tq2.1, tq2.2]
    rw [if_neg hdne]
    rw [show ('"' :: (mid ++ (litGt ++ (c ++ (litClose ++ r))))) =
        (litQuote ++ (mid ++ (litGt ++ (c ++ (litClose ++ r))))) from rfl]
    simp only [expectLit_append]
    rw [show (mid ++ (litGt ++ (c ++ (litClose ++ r)))) =
        (mid ++ '>' :: (c ++ (litClose ++ r))) from rfl]
    simp only [tg.2]
    rw [show ('>' :: (c ++ (litClose ++ r))) = (litGt ++ (c ++ (litClose ++ r))) from rfl]
    simp only [expectLit_append]
    rw [show (c ++ (litClose ++ r)) = (c ++ '<' :: ("/text>".toList ++ r)) from rfl]
    simp only [tl.1, tl.2]
    rw [if_neg hcne]
    rw [show ('<' :: ("/text>".toList ++ r)) = (litClose ++ r) from rfl]
    simp only [expectLit_append]

/-- C3 witness: a concrete element with an extra attribute after `dur`,
matched via the characterization. -/

theorem C3_witness :
    matchTextElem ("<text start=\"12\" dur=\"3.5\" k=\"v\">txt</text>rest".toList) =
      some ("12".toList, "3.5".toList, "txt".toList, "rest".toList) :=
  (C3_attribute_order.1 _ _ _ _ _).mpr ⟨" k=\"v\"".toList, by decide⟩

/-! ### Claim C10 -/

theorem insertF_total {x : F64 × List Char} {acc : List (F64 × List Char)}
    (hx : x.1 ≠ F64.nan) (hacc : ∀ e ∈ acc, e.1 ≠ F64.nan) :
    ∃ res, insertF x acc = some res ∧ ∀ e ∈ res, e.1 ≠ F64.nan := by
  induction acc with
  | nil =>
    refine ⟨[x], rfl, ?_⟩
    intro e he
    rcases List.mem_singleton.mp he with rfl
    exact hx
  | cons y ys ih =>
    have hy : y.1 ≠ F64.nan := hacc y (List.mem_cons_self y ys)
    have hys : ∀ e ∈ ys, e.1 ≠ F64.nan := fun e he => hacc e (List.mem_cons_of_mem y he)
    rcases hxq : x.1 with - | qx
    · exact absurd hxq hx
    rcases hyq : y.1 with - | qy
    · exact absurd hyq hy
    have hcmp : F64.partialCmp x.1 y.1 = some (compare qx qy) := by
      rw [hxq, hyq]
      rfl
    rcases ih hys with ⟨res, hres, hresnan⟩
    rcases hord : compare qx qy with - | - | -
    · refine ⟨x :: y :: ys, ?_, ?_⟩
      · rw [insertF, hcmp, hord]
      · intro e he
        rcases List.mem_cons.mp he with rfl | he2
        · exact hx
        · exact hacc e he2
    · refine ⟨y :: res, ?_, ?_⟩
      · rw [insertF, hcmp, hord, hres]
        rfl
      · intro e he
        rcases List.mem_cons.mp he with rfl | he2
        · exact hy
        · exact hresnan e he2
    · refine ⟨y :: res, ?_, ?_⟩
      · rw [insertF, hcmp, hord, hres]
        rfl
      · intro e he
        rcases List.mem_cons.mp he with rfl | he2
        · exact hy
        · exact hresnan e he2

theorem sortFAux_total {l : List (F64 × List Char)} :
    ∀ acc : List (F64 × List Char), (∀ e ∈ acc, e.1 ≠ F64.nan) →
      (∀ e ∈ l, e.1 ≠ F64.nan) → ∃ res, sortFAux acc l = some res := by
  induction l with
  | nil => exact fun _ _ _ => ⟨_, rfl⟩
  | cons x xs ih =>
    intro acc hacc hl
    have hx : x.1 ≠ F64.nan := hl x (List.mem_cons_self x xs)
    have hxs : ∀ e ∈ xs, e.1 ≠ F64.nan := fun e he => hl e (List.mem_cons_of_mem x he)
    rcases insertF_total hx hacc with ⟨acc2, hins, hacc2⟩
    rcases ih acc2 hacc2 hxs with ⟨res, hres⟩
    refine ⟨res, ?_⟩
    rw [sortFAux, hins]
    exact hres

/-- C10, counterexample to the claim as stated: the line
`[0:2147483646] x` is accepted with the finite (non-NaN) timestamp
2147483646, satisfying the claim's precondition, yet `normalize_timestamps`
on it produces no result: the loop reaches `current_timestamp = 2147483646`
(the saturated `as i32` bound) and the following `current_timestamp +=
interval` overflows `i32` — a panic under checked arithmetic, an infinite
loop after the wrap in release builds. -/

theorem C10_overflow_counterexample :
    (∀ l ∈ (["[0:2147483646] x".toList] : List (List Char)),
        (process_timestamp_line l).map Prod.fst ≠ some F64.nan) ∧
      normalize_timestamps ["[0:2147483646] x".toList] = none := by
  exact ⟨by decide, by decide⟩

theorem insertF_mem {x : F64 × List Char} {acc res : List (F64 × List Char)}
    (h : insertF x acc = some res) : ∀ e ∈ res, e = x ∨ e ∈ acc := by
  induction acc generalizing res with
  | nil =>
    rw [insertF] at h
    cases h
    intro e he
    rcases List.mem_singleton.mp he with rfl
    exact Or.inl rfl
  | cons y ys ih =>
    rw [insertF] at h
    split at h
    · cases h
    · cases h
      intro e he
      rcases List.mem_cons.mp he with rfl | he2
      · exact Or.inl rfl
      · exact Or.inr he2
    · rcases Option.map_eq_some'.mp h with ⟨res2, hr2, rfl⟩
      intro e he
      rcases List.mem_cons.mp he with rfl | he2
      · exact Or.inr (List.mem_cons_self _ _)
      · rcases ih hr2 e he2 with h3 | h4
        · exact Or.inl h3
        · exact Or.inr (List.mem_cons_of_mem y h4)

theorem sortFAux_mem {l : List (F64 × List Char)} :
    ∀ {acc res : List (F64 × List Char)}, sortFAux acc l = some res →
      ∀ e ∈ res, e ∈ acc ∨ e ∈ l := by
  induction l with
  | nil =>
    intro acc res h e he
    rw [sortFAux] at h
    cases h
    exact Or.inl he
  | cons x xs ih =>
    intro acc res h e he
    rw [sortFAux] at h
    split at h
    · cases h
    · rename_i acc2 hins
      rcases ih h e he with h1 | h2
      · rcases insertF_mem hins e h1 with h3 | h4
        · refine Or.inr ?_
          rw [h3]
          exact List.mem_cons_self x xs
        · exact Or.inl h4
      · exact Or.inr (List.mem_cons_of_mem x h2)

/-- C10 (amended): whenever every line accepted by `process_timestamp_line`
carries a non-NaN timestamp, the sort comparator's `unwrap` cannot fire;
and provided additionally that every accepted timestamp's `as i32` cast
stays below 2147483646 (so that the bucket loop's final
`current_timestamp += interval` does not overflow `i32`),
`normalize_timestamps` completes normally.  The NaN precondition is
necessary: `process_timestamp_line` accepts the line `[NaN:0] x` with a
NaN timestamp, and on an input holding that line together with a second
parsed line the comparator is invoked on a NaN pair and the function
panics (modelled as `none`).  The overflow bound is necessary as well —
see `C10_overflow_counterexample`. -/

theorem C10_sort_totality :
    (∀ lines : List (List Char),
        (∀ l ∈ lines, (process_timestamp_line l).map Prod.fst ≠ some F64.nan) →
        (∀ l ∈ lines,
          ((process_timestamp_line l).map (fun p => truncF64 p.1)).getD 0 < 2147483646) →
        (normalize_timestamps lines).isSome) ∧
    process_timestamp_line ("[NaN:0] x".toList) = some (F64.nan, "x".toList) ∧
    normalize_timestamps ["[NaN:0] x".toList, "[0:00] y".toList] = none := by
  refine ⟨?_, by decide, by decide⟩
  intro lines hnn hbound
  have hent : ∀ e ∈ lines.filterMap process_timestamp_line, e.1 ≠ F64.nan := by
    intro e he
    rcases List.mem_filterMap.mp he with ⟨l, hl, hpl⟩
    intro hnan
    apply hnn l hl
    rw [hpl, Option.map_some', hnan]
  rcases sortFAux_total (l := lines.filterMap process_timestamp_line) []
      (by intro e he; cases he) hent with ⟨sorted, hsorted⟩
  have hsorted2 : sortByTimestamp (lines.filterMap process_timestamp_line) = some sorted :=
    hsorted
  have hmlt : truncF64 ((sorted.getLast?.map Prod.fst).getD (F64.fin 0)) < 2147483646 := by
    cases hlast : sorted.getLast? with
    | none =>
      simp only [hlast, Option.map_none', Option.getD_none]
      decide
    | some p =>
      have hp : p ∈ sorted := by
        rcases List.mem_getLast?_eq_getLast (Option.mem_def.mpr hlast) with ⟨hne, rfl⟩
        exact List.getLast_mem hne
      have hpent : p ∈ lines.filterMap process_timestamp_line := by
        rcases sortFAux_mem hsorted p hp with h0 | h1
        · cases h0
        · exact h1
      rcases List.mem_filterMap.mp hpent with ⟨l, hl, hpl⟩
      have hb := hbound l hl
      rw [hpl, Option.map_some', Option.getD_some] at hb
      simp only [hlast, Option.map_some', Option.getD_some]
      exact hb
  simp only [normalize_timestamps, hsorted2]
  set m := truncF64 ((sorted.getLast?.map Prod.fst).getD (F64.fin 0)) with hmdef
  by_cases hneg : m < 0
  · rw [if_pos hneg]
    rfl
  · have hnof : ¬ (I32_MAX < 6 * ((m.toNat / 6 : ℕ) : ℤ) + 6) := by
      have hMAX : I32_MAX = 2147483647 := rfl
      omega
    rw [if_neg hneg, if_neg hnof]
    rfl

/-- C10 witness: the amended totality statement applied to a concrete
single-line input with a small finite timestamp, both hypotheses discharged
by evaluation. -/

theorem C10_witness :
    (∀ l ∈ (["[0:00] a".toList] : List (List Char)),
        (process_timestamp_line l).map Prod.fst ≠ some F64.nan) ∧
    (∀ l ∈ (["[0:00] a".toList] : List (List Char)),
        ((process_timestamp_line l).map (fun p => truncF64 p.1)).getD 0 < 2147483646) ∧
      (normalize_timestamps ["[0:00] a".toList]).isSome :=
  ⟨by decide, by decide, C10_sort_totality.1 ["[0:00] a".toList] (by decide) (by decide)⟩

/-- C8 witness: the idempotence statement instantiated at a concrete input
and bucket value. -/
theorem C8_witness :
    (0 : ℤ) ∈ (normalizeEntries ((normalizeEntries [((0 : ℚ), ['a'])]).map
        lineToEntry)).map Prod.fst ↔
      (0 : ℤ) ∈ (normalizeEntries [((0 : ℚ), ['a'])]).map Prod.fst :=
  C8_idempotence [((0 : ℚ), ['a'])] 0

end YT
